import Mathlib

/-!
gpt4all-chat/chatllm.h : TokenTimer and the ChatLLM session

A shallow embedding of `TokenTimer` (the throughput timer) and of the parts of
`ChatLLM` that the specification talks about.

* Single precision arithmetic (`float`) is embedded exactly: a finite binary32
  value is an integer multiple of `2^-149`, and the embedding stores that
  multiple.  Every arithmetic operation computes the exact result and rounds it
  to the nearest binary32 value, ties to even (IEEE 754 default rounding, each
  operation rounded to `float`).  Overflow to infinity is not represented; no
  operation on operands that come from 32 or 64 bit integers reaches it.
* `quint32` is a `Nat` reduced modulo `2^32`; `qint64` and clock readings are
  `Int` (signed overflow is undefined in C++ and is not modelled).
* `QElapsedTimer` is a start point that may be absent (an invalid timer).
-/

namespace F32

/-- Fuel driven binary logarithm: `ilog2Aux fuel n` is `⌊log₂ n⌋` when `fuel ≥ n`. -/
def ilog2Aux : Nat → Nat → Nat
  | 0, _ => 0
  | fuel + 1, n => if n < 2 then 0 else ilog2Aux fuel (n / 2) + 1

/-- `⌊log₂ n⌋` for `n ≥ 1`, and `0` for `n = 0`. -/
def ilog2 (n : Nat) : Nat := ilog2Aux n n

/-- The integer nearest to `n / d`, a tie going to the even neighbour. -/
def roundHalfEvenDiv (n d : Nat) : Nat :=
  let q := n / d
  let r := n % d
  if 2 * r < d then q
  else if d < 2 * r then q + 1
  else if q % 2 = 0 then q else q + 1

/-- Binary32 rounding of the non-negative real `n / d` given in units of `2^-149`.
The binade of the value fixes the spacing `2^k` of the representable numbers
around it (24 significant bits; spacing `1` unit in the subnormal range), and
the value is rounded to the nearest multiple of that spacing, ties to even. -/
def roundNat (n d : Nat) : Nat :=
  let k := ilog2 (n / d) - 23
  roundHalfEvenDiv n (d * 2 ^ k) * 2 ^ k

/-- Binary32 rounding of the real `n / d` (in units of `2^-149`), sign and magnitude. -/
def round (n : Int) (d : Nat) : Int :=
  Int.sign n * (roundNat n.natAbs d : Int)

/-- The number of `2^-149` units in `1.0f`. -/
def unit : Nat := 2 ^ 149

/-- The constant `0.5f`. -/
def half : Int := 2 ^ 148

/-- Conversion of an integer to `float`. -/
def ofInt (i : Int) : Int := round (i * unit) 1

/-- Single precision `a * b`. -/
def mul (a b : Int) : Int := round (a * b) unit

/-- Single precision `a + b`. -/
def add (a b : Int) : Int := round (a + b) 1

/-- Single precision `a - b`. -/
def sub (a b : Int) : Int := round (a - b) 1

/-- Single precision `a / b`; `none` when the divisor is zero (the result is then
an infinity or a NaN, not a number). -/
def div (a b : Int) : Option Int :=
  if b = 0 then none else some (Int.sign b * round (a * unit) b.natAbs)

/-- Conversion `int(d)` of a `float` to a 32 bit `int`: truncation toward zero;
`none` when the value does not fit (undefined behaviour in C++). -/
def toInt (d : Int) : Option Int :=
  let t := Int.tdiv d unit
  if -2147483648 ≤ t ∧ t ≤ 2147483647 then some t else none

/-- A non-negative binary32 value, in units of `2^-149`: at most 24 significant bits. -/
def Rep (r : Nat) : Prop := ∃ m j : Nat, m < 2 ^ 24 ∧ r = m * 2 ^ j

end F32

/-- Qt's `qRound(float d)`: `d >= 0.0f ? int(d + 0.5f) : int(d - 0.5f)` (for
`d >= 0.0f` every Qt version computes `int(d + 0.5f)`). -/
def qRound (d : Int) : Option Int :=
  if 0 ≤ d then F32.toInt (F32.add d F32.half) else F32.toInt (F32.sub d F32.half)

namespace TokenTimer

/-- `TokenTimer::rollingAverage`:
`qRound(((float(oldAvg) * (n - 1)) + newNumber) / float(n))`.
The `int` operands are converted to `float` where C++ converts them; the result
is `none` where C++ leaves it undefined (`n - 1` outside `int`, a zero divisor,
a quotient outside `int`). -/
def rollingAverage (oldAvg newNumber n : Int) : Option Int :=
  if n - 1 < -2147483648 then none
  else
    match F32.div (F32.add (F32.mul (F32.ofInt oldAvg) (F32.ofInt (n - 1))) (F32.ofInt newNumber))
        (F32.ofInt n) with
    | none => none
    | some q => qRound q

end TokenTimer

/-- Qt's `QElapsedTimer`, reduced to what `TokenTimer` uses: the reading of the
monotonic clock (in milliseconds) at which the timer was last started, absent for
an invalid timer. -/
structure QElapsedTimer where
  /-- The start point; `none` for an invalid timer. -/
  startedAt : Option Int
  deriving DecidableEq, Repr

namespace QElapsedTimer

/-- `QElapsedTimer::invalidate()`. -/
def invalidate (_t : QElapsedTimer) : QElapsedTimer := ⟨none⟩

/-- `QElapsedTimer::isValid()`. -/
def isValid (t : QElapsedTimer) : Bool := t.startedAt.isSome

/-- `QElapsedTimer::start()` at clock reading `now`. -/
def start (now : Int) (_t : QElapsedTimer) : QElapsedTimer := ⟨some now⟩

/-- `QElapsedTimer::elapsed()` at clock reading `now`: the milliseconds since the
start point.  Qt leaves the value for an invalid timer unspecified; the argument
`junk` stands for it. -/
def elapsed (now junk : Int) (t : QElapsedTimer) : Int :=
  match t.startedAt with
  | some t0 => now - t0
  | none => junk

/-- `QElapsedTimer::restart()` at clock reading `now`: returns what `elapsed()`
returns and starts the timer again at `now`. -/
def restart (now junk : Int) (t : QElapsedTimer) : Int × QElapsedTimer :=
  (t.elapsed now junk, ⟨some now⟩)

end QElapsedTimer

namespace TokenTimer

/-- The two operands of the quotient that `handleTimeout` formats into the text
of `report(const QString &speed)`: the values of `m_tokens` and `m_elapsed` at
the emission.  The text `"%1 tokens/sec"` (two significant digits) is a function
of them and is not modelled. -/
structure Report where
  /-- The value of `m_tokens`. -/
  tokens : Nat
  /-- The value of `m_elapsed`, in milliseconds. -/
  elapsed : Int
  deriving DecidableEq, Repr

/-- The divisor `float(m_elapsed / 1000.0f)` of the reported quotient. -/
def seconds (elapsed : Int) : Option Int :=
  F32.div (F32.ofInt elapsed) (F32.ofInt 1000)

/-- The quotient `m_tokens / float(m_elapsed / 1000.0f)` in single precision;
`none` when the divisor is zero. -/
def rate (tokens : Nat) (elapsed : Int) : Option Int :=
  match seconds elapsed with
  | none => none
  | some secs => F32.div (F32.ofInt (tokens : Int)) secs

/-- The number that a report shows, before it is formatted. -/
def Report.speed (r : Report) : Option Int := rate r.tokens r.elapsed

end TokenTimer

/-- The state of a `TokenTimer`: its three data members. -/
structure TokenTimer where
  /-- `QElapsedTimer m_time`. -/
  m_time : QElapsedTimer
  /-- `qint64 m_elapsed`. -/
  m_elapsed : Int
  /-- `quint32 m_tokens`. -/
  m_tokens : Nat
  deriving DecidableEq, Repr

namespace TokenTimer

/-- `TokenTimer::start()`: `m_tokens = 0; m_elapsed = 0; m_time.invalidate();`.
No signal is emitted. -/
def start (s : TokenTimer) : TokenTimer × List Report :=
  ({ m_tokens := 0, m_elapsed := 0, m_time := s.m_time.invalidate }, [])

/-- `TokenTimer::handleTimeout()`:
`m_elapsed += m_time.restart(); emit report(... m_tokens / float(m_elapsed / 1000.0f) ...)`. -/
def handleTimeout (now junk : Int) (s : TokenTimer) : TokenTimer × List Report :=
  let r := s.m_time.restart now junk
  let s1 : TokenTimer := { s with m_elapsed := s.m_elapsed + r.1, m_time := r.2 }
  (s1, [{ tokens := s1.m_tokens, elapsed := s1.m_elapsed }])

/-- `TokenTimer::stop()`: `handleTimeout();`. -/
def stop (now junk : Int) (s : TokenTimer) : TokenTimer × List Report :=
  handleTimeout now junk s

/-- `TokenTimer::inc()`:
`if (!m_time.isValid()) m_time.start(); ++m_tokens; if (m_time.elapsed() > 999) handleTimeout();`.
All clock queries of one call see the same reading `now`. -/
def inc (now junk : Int) (s : TokenTimer) : TokenTimer × List Report :=
  let s1 : TokenTimer := if !s.m_time.isValid then { s with m_time := s.m_time.start now } else s
  let s2 : TokenTimer := { s1 with m_tokens := (s1.m_tokens + 1) % 4294967296 }
  if s2.m_time.elapsed now junk > 999 then handleTimeout now junk s2 else (s2, [])

/-- A report together with the call that emitted it: the position of the call in
the run and the clock reading of the call. -/
structure Emitted where
  /-- Position of the emitting `inc()` call in the run, counted from `0`. -/
  call : Nat
  /-- Clock reading of the emitting call. -/
  time : Int
  /-- The report. -/
  report : Report
  deriving DecidableEq, Repr

/-- A run of `inc()` calls, one per clock reading, the first of them being call
number `idx`; returns the final state and the reports in the order of emission. -/
def runIncFrom (junk : Int) : Nat → List Int → TokenTimer → TokenTimer × List Emitted
  | _, [], s => (s, [])
  | idx, t :: ts, s =>
    let r := inc t junk s
    let rest := runIncFrom junk (idx + 1) ts r.1
    (rest.1, r.2.map (fun x => { call := idx, time := t, report := x }) ++ rest.2)

/-- A run that begins with `start()` and continues with one `inc()` per reading. -/
def runInc (junk : Int) (ts : List Int) (s : TokenTimer) : TokenTimer × List Emitted :=
  runIncFrom junk 0 ts (start s).1

/-- The timer as the specification words it: each report carries the tokens
counted since the previous report (since `start()` for the first report) and the
elapsed time of the interval that just ended.  The state is the interval's token
count and the start point of the interval clock. -/
def specRunFrom : Nat → Option Int → List Int → List (Nat × Int)
  | _, _, [] => []
  | cnt, clk, t :: ts =>
    let c := clk.getD t
    if t - c > 999 then (cnt + 1, t - c) :: specRunFrom 0 (some t) ts
    else specRunFrom (cnt + 1) (some c) ts

/-- The rates that the specification's wording assigns to the reports of a run
of `inc()` calls after `start()`. -/
def specRates (ts : List Int) : List (Option Int) :=
  (specRunFrom 0 none ts).map (fun p => rate p.1 p.2)

end TokenTimer

namespace TokenTimer

/-- The start point from which `inc()` measures the interval when it tests the
threshold: the start point of a running clock, and the current reading for a
clock that `inc()` has just started. -/
def clockStart (now : Int) (s : TokenTimer) : Int :=
  match s.m_time.startedAt with
  | some c => c
  | none => now

/-- The specification's wording of what one `inc()` call does, read literally:
the token count goes up by exactly one; a report is flushed exactly when the time
since the interval clock was last (re)started is at least 1000 ms; a flushing
call adds the interval to the accumulated time and restarts the clock; any other
call leaves the accumulated time and the clock as they were. -/
def IncAsWorded (now junk : Int) (s : TokenTimer) : Prop :=
  (inc now junk s).1.m_tokens = s.m_tokens + 1 ∧
  ((inc now junk s).2.length = 1 ↔ 1000 ≤ now - clockStart now s) ∧
  ((inc now junk s).2 ≠ [] →
    (inc now junk s).1.m_elapsed = s.m_elapsed + (now - clockStart now s) ∧
    (inc now junk s).1.m_time = ⟨some now⟩) ∧
  ((inc now junk s).2 = [] →
    (inc now junk s).1.m_elapsed = s.m_elapsed ∧ (inc now junk s).1.m_time = s.m_time)

end TokenTimer
/-- The integer nearest to `m / n`, a quotient halfway between two integers going
up: `⌊m / n + 1/2⌋`. -/
def nearestHalfUp (m n : Nat) : Nat := (2 * m + n) / (2 * n)

namespace TokenTimer

/-- The running value of the specification: samples are fed one at a time,
`avg_i = rollingAverage(avg_{i-1}, x_i, i)`; `runningAverageFrom avg i xs` feeds
the samples `xs` as samples number `i, i + 1, ...` to the average `avg`. -/
def runningAverageFrom : Int → Int → List Int → Option Int
  | avg, _, [] => some avg
  | avg, i, x :: xs =>
    match rollingAverage avg x i with
    | none => none
    | some a => runningAverageFrom a (i + 1) xs

/-- The running value after all of `x_1, ..., x_k`, from
`avg_1 = rollingAverage(a, x_1, 1)`. -/
def runningAverage (a : Int) (xs : List Int) : Option Int := runningAverageFrom a 1 xs

end TokenTimer

/-! ## The ChatLLM session

`chatllm.h` declares `ChatLLM::prompt`, `serialize`, `deserialize` and
`isModelLoaded`; their bodies are in `chatllm.cpp`, which is not part of the
sources at hand.  The definitions below follow the specification. -/

/-- Text as `QString` holds it: a sequence of UTF-16 code units. -/
abbrev QString := List Nat

/-- Raw bytes (`QByteArray`, and the contents of a `QDataStream`). -/
abbrev QByteArray := List Nat

/-- The data members of `ChatLLM` that the specification refers to.  The model
handle `m_modelInfo.model` is reduced to whether it is present; `generating`
records that a generation (prompt or name generation) is active. -/
structure ChatLLM where
  /-- `QString m_modelName`. -/
  m_modelName : QString
  /-- `m_response`, the response buffer, as the text `response()` returns. -/
  m_response : QString
  /-- `m_nameResponse`, the buffer of the generated name. -/
  m_nameResponse : QString
  /-- `quint32 m_promptTokens`. -/
  m_promptTokens : Nat
  /-- `quint32 m_promptResponseTokens`. -/
  m_promptResponseTokens : Nat
  /-- `LLModel::PromptContext m_ctx`, opaque to the controller. -/
  m_ctx : QByteArray
  /-- `QByteArray m_state`, the saved context blob. -/
  m_state : QByteArray
  /-- Whether `m_modelInfo.model` is present. -/
  modelPresent : Bool
  /-- Whether a generation is active. -/
  generating : Bool
  /-- `std::atomic<bool> m_stopGenerating`. -/
  m_stopGenerating : Bool
  /-- `std::atomic<bool> m_shouldBeLoaded`. -/
  m_shouldBeLoaded : Bool
  /-- `QList<ResultInfo> m_databaseResults`, the retrieved snippets. -/
  m_databaseResults : List QString
  /-- `bool m_isRecalc`. -/
  m_isRecalc : Bool
  deriving DecidableEq, Repr

namespace ChatLLM

/-- The signals of `ChatLLM` that a prompt can emit. -/
inductive Signal where
  | responseChanged
  | promptProcessing
  | responseStopped
  | recalcChanged
  | stateChanged
  | reportSpeed
  deriving DecidableEq, Repr

/-- The arguments of `prompt`; the sampling parameters other than `n_predict`
are handed to the backend unread. -/
structure PromptArgs where
  /-- The prompt text. -/
  text : QString
  /-- The prompt template. -/
  promptTemplate : QString
  /-- `n_predict`, the bound on generated tokens. -/
  n_predict : Nat
  /-- `top_k`, `n_batch`, `repeat_penalty_tokens`, `n_threads` and the three
  `float` parameters, opaque here. -/
  sampling : List Nat
  deriving DecidableEq, Repr

/-- What one backend generation does, as seen through the hooks: the number of
prompt tokens it processes, the response tokens it would stream (their text),
and the context it leaves. -/
structure BackendRun where
  /-- Prompt tokens handed to the token-processing hook. -/
  promptTokens : Nat
  /-- Text of the response tokens, in order, up to end-of-sequence. -/
  responseTokens : List QString
  /-- The conversational context after the run. -/
  ctx : QByteArray

/-- The collaborators of a session: retrieval, template substitution, the
backend, the response callback after which the stop flag is first seen set, and
the response tokens at which the throughput timer reports. -/
structure Collaborators where
  /-- The retrieval collaborator: snippets for a query. -/
  retrieve : QString → List QString
  /-- Substitution of snippets and prompt text into the template. -/
  substitute : QString → List QString → QString → QString
  /-- The backend's generation for an instantiated prompt, a context and arguments. -/
  backend : QString → QByteArray → PromptArgs → BackendRun
  /-- Number of response callbacks after which the stop flag is observed set. -/
  stopAfter : Option Nat
  /-- Whether the throughput timer reports at the response token of this index. -/
  timerTick : Nat → Bool

/-- Modelled from the spec: `ChatLLM::isModelLoaded()` is declared in
`chatllm.h` and defined elsewhere; by the specification the session reports
loaded exactly when the model handle exists. -/
def isModelLoaded (s : ChatLLM) : Bool := s.modelPresent

/-- Modelled from the spec: the response hook (`handleResponse`, defined in
`chatllm.cpp`) for response token number `i`: it appends the text, advances the
token count, notifies at the timer's cadence, and asks the backend to stop when
the stop flag is seen.  Returns whether generation continues. -/
def handleResponse (env : Collaborators) (i : Nat) (tok : QString) (s : ChatLLM) :
    Bool × ChatLLM × List Signal :=
  let s1 := { s with m_response := s.m_response ++ tok,
                     m_promptResponseTokens := (s.m_promptResponseTokens + 1) % 4294967296 }
  let sig := if env.timerTick i then [Signal.reportSpeed, Signal.responseChanged] else []
  let stopNow := match env.stopAfter with
    | some k => decide (k ≤ i + 1)
    | none => false
  (!stopNow, s1, sig)

/-- Modelled from the spec: the backend's streaming loop over the response
tokens, bounded by `n_predict`, ended early when the response hook aborts. -/
def streamResponse (env : Collaborators) : Nat → Nat → List QString → ChatLLM →
    Bool × ChatLLM × List Signal
  | _, _, [], s => (true, s, [])
  | 0, _, _ :: _, s => (true, s, [])
  | budget + 1, i, tok :: toks, s =>
    let r := handleResponse env i tok s
    if r.1 then
      let rest := streamResponse env budget (i + 1) toks r.2.1
      (rest.1, rest.2.1, r.2.2 ++ rest.2.2)
    else (false, r.2.1, r.2.2 ++ [Signal.responseStopped])

/-- Modelled from the spec: `ChatLLM::prompt` is declared in `chatllm.h` and
defined in `chatllm.cpp`.  It fails at once, changing nothing, when no model is
loaded or a generation is active; otherwise it stores the retrieved snippets,
instantiates the template, runs the backend through the hooks, accumulates text
and token counts, and returns whether generation completed normally. -/
def prompt (env : Collaborators) (args : PromptArgs) (s : ChatLLM) :
    Bool × ChatLLM × List Signal :=
  if !s.isModelLoaded || s.generating then (false, s, [])
  else
    let snippets := env.retrieve args.text
    let instantiated := env.substitute args.promptTemplate snippets args.text
    let run := env.backend instantiated s.m_ctx args
    let s1 := { s with m_databaseResults := snippets, m_stopGenerating := false,
                       generating := true,
                       m_promptTokens := (s.m_promptTokens + run.promptTokens) % 4294967296,
                       m_promptResponseTokens :=
                         (s.m_promptResponseTokens + run.promptTokens) % 4294967296 }
    let r := streamResponse env args.n_predict 0 run.responseTokens s1
    (r.1, { r.2.1 with generating := false, m_ctx := run.ctx },
      Signal.promptProcessing :: r.2.2 ++ [Signal.responseChanged])

/-! ### The persisted format -/

/-- Modelled from the spec: an unsigned 32 bit field, most significant byte first. -/
def putU32 (n : Nat) : QByteArray :=
  [n / 16777216 % 256, n / 65536 % 256, n / 256 % 256, n % 256]

/-- Modelled from the spec: reading an unsigned 32 bit field. -/
def getU32 : QByteArray → Option (Nat × QByteArray)
  | b0 :: b1 :: b2 :: b3 :: rest => some (b0 * 16777216 + b1 * 65536 + b2 * 256 + b3, rest)
  | _ => none

/-- The UTF-16 code units of a string, two bytes each. -/
def putUnits : QString → QByteArray
  | [] => []
  | u :: us => u / 256 % 256 :: u % 256 :: putUnits us

/-- Reading `k` UTF-16 code units. -/
def getUnits : Nat → QByteArray → Option (QString × QByteArray)
  | 0, bs => some ([], bs)
  | k + 1, hi :: lo :: bs =>
    match getUnits k bs with
    | some (us, rest) => some ((hi * 256 + lo) :: us, rest)
    | none => none
  | _ + 1, _ => none

/-- Modelled from the spec: a string field, its length in bytes followed by its
UTF-16 data. -/
def putString (s : QString) : QByteArray := putU32 (2 * s.length) ++ putUnits s

/-- Modelled from the spec: reading a string field; fails on an odd length or
on missing data. -/
def getString (bs : QByteArray) : Option (QString × QByteArray) :=
  match getU32 bs with
  | none => none
  | some (len, rest) => if len % 2 = 0 then getUnits (len / 2) rest else none

/-- Modelled from the spec: a length-prefixed opaque blob. -/
def putBlob (b : QByteArray) : QByteArray := putU32 b.length ++ b

/-- Modelled from the spec: reading a length-prefixed blob; fails on missing data. -/
def getBlob (bs : QByteArray) : Option (QByteArray × QByteArray) :=
  match getU32 bs with
  | none => none
  | some (len, rest) => if len ≤ rest.length then some (rest.take len, rest.drop len) else none

/-- Modelled from the spec: `ChatLLM::serialize` (declared in `chatllm.h`,
defined in `chatllm.cpp`) writes the version tag and then, in order, the model
name, the prompt token count, the prompt-response token count, the response text
and the length-prefixed context blob.  Returns success and the bytes written. -/
def serialize (s : ChatLLM) (version : Nat) : Bool × QByteArray :=
  (true, putU32 version ++ putString s.m_modelName ++ putU32 s.m_promptTokens
    ++ putU32 s.m_promptResponseTokens ++ putString s.m_response ++ putBlob s.m_state)

/-- Modelled from the spec: `ChatLLM::deserialize` (declared in `chatllm.h`,
defined in `chatllm.cpp`) reads what `serialize` writes.  A version tag other
than `version` or a malformed stream fails the whole operation and leaves the
session as it was; on success the fields are replaced, the session is left
unloaded, and anything after the known fields is skipped. -/
def deserialize (bs : QByteArray) (version : Nat) (s : ChatLLM) : Bool × ChatLLM :=
  match getU32 bs with
  | none => (false, s)
  | some (tag, r0) =>
    if tag ≠ version then (false, s)
    else
      match getString r0 with
      | none => (false, s)
      | some (name, r1) =>
        match getU32 r1 with
        | none => (false, s)
        | some (pt, r2) =>
          match getU32 r2 with
          | none => (false, s)
          | some (prt, r3) =>
            match getString r3 with
            | none => (false, s)
            | some (resp, r4) =>
              match getBlob r4 with
              | none => (false, s)
              | some (blob, _) =>
                (true, { s with m_modelName := name, m_promptTokens := pt,
                                m_promptResponseTokens := prt, m_response := resp,
                                m_state := blob, modelPresent := false })

/-- The fields of a session fit their types: code units below `2^16`, bytes
below `2^8`, counts and lengths within 32 bits. -/
def WellFormed (s : ChatLLM) : Prop :=
  (∀ u ∈ s.m_modelName, u < 65536) ∧ 2 * s.m_modelName.length < 4294967296 ∧
  (∀ u ∈ s.m_response, u < 65536) ∧ 2 * s.m_response.length < 4294967296 ∧
  s.m_promptTokens < 4294967296 ∧ s.m_promptResponseTokens < 4294967296 ∧
  s.m_state.length < 4294967296

end ChatLLM

namespace ChatLLM

/-- A sample set of collaborators: no snippets, the template followed by the
prompt text, and a backend that streams the two tokens `Hi` and ` there`. -/
def sampleCollaborators : Collaborators where
  retrieve := fun _ => []
  substitute := fun tpl _ text => tpl ++ text
  backend := fun _ ctx _ => ⟨1, [[72, 105], [32, 116, 104, 101, 114, 101]], ctx⟩
  stopAfter := none
  timerTick := fun _ => false

/-- A sample session without a loaded model, holding the response `Hi`. -/
def sampleSession : ChatLLM where
  m_modelName := [109, 111, 100, 101, 108, 65]
  m_response := [72, 105]
  m_nameResponse := []
  m_promptTokens := 3
  m_promptResponseTokens := 5
  m_ctx := [1, 2, 3]
  m_state := [7, 0, 255]
  modelPresent := false
  generating := false
  m_stopGenerating := false
  m_shouldBeLoaded := true
  m_databaseResults := []
  m_isRecalc := false

end ChatLLM

/-! ## Single precision rounding -/

namespace F32

theorem ilog2Aux_spec : ∀ (fuel n : Nat), n ≤ fuel → 1 ≤ n →
    2 ^ ilog2Aux fuel n ≤ n ∧ n < 2 ^ (ilog2Aux fuel n + 1) := by
  intro fuel
  induction fuel with
  | zero => intro n h0 h1; omega
  | succ f ih =>
    intro n hf h1
    unfold ilog2Aux
    by_cases h2 : n < 2
    · have : n = 1 := by omega
      subst this
      simp
    · simp only [h2, if_false]
      have hle : n / 2 ≤ f := by omega
      have hpos : 1 ≤ n / 2 := by omega
      obtain ⟨ha, hb⟩ := ih (n / 2) hle hpos
      constructor
      · rw [pow_succ]; omega
      · rw [pow_succ]; omega

theorem pow_ilog2_le (n : Nat) (h : 1 ≤ n) : 2 ^ ilog2 n ≤ n :=
  (ilog2Aux_spec n n le_rfl h).1

theorem lt_pow_ilog2_succ (n : Nat) (h : 1 ≤ n) : n < 2 ^ (ilog2 n + 1) :=
  (ilog2Aux_spec n n le_rfl h).2

theorem roundHalfEvenDiv_le (n d t : Nat) (hd : 0 < d) (h : n ≤ t * d) :
    roundHalfEvenDiv n d ≤ t := by
  have hq : n / d ≤ t := by
    calc n / d ≤ t * d / d := Nat.div_le_div_right h
      _ = t := Nat.mul_div_cancel t hd
  have hsplit : d * (n / d) + n % d = n := Nat.div_add_mod n d
  have hstrict : 0 < n % d → n / d + 1 ≤ t := by
    intro hr
    by_contra hc
    have heq : n / d = t := by omega
    rw [heq] at hsplit
    have : d * t = t * d := Nat.mul_comm d t
    omega
  unfold roundHalfEvenDiv
  simp only
  split_ifs with h1 h2 h3
  · exact hq
  · exact hstrict (by omega)
  · exact hq
  · exact hstrict (by omega)

theorem le_roundHalfEvenDiv (n d t : Nat) (hd : 0 < d) (h : t * d ≤ n) :
    t ≤ roundHalfEvenDiv n d := by
  have hq : t ≤ n / d := (Nat.le_div_iff_mul_le hd).2 h
  unfold roundHalfEvenDiv
  simp only
  split_ifs <;> omega

theorem Rep.dvd_or_lt {r : Nat} (hr : Rep r) (k : Nat) : 2 ^ k ∣ r ∨ (1 ≤ k ∧ r < 2 ^ (k + 23)) := by
  obtain ⟨m, j, hm, rfl⟩ := hr
  by_cases hjk : k ≤ j
  · left
    exact Dvd.dvd.mul_left (pow_dvd_pow 2 hjk) m
  · right
    refine ⟨by omega, ?_⟩
    have h1 : 2 ^ j ≤ 2 ^ (k - 1) := Nat.pow_le_pow_right (by norm_num) (by omega)
    have h2 : (2:Nat) ^ (k + 23) = 2 ^ 24 * 2 ^ (k - 1) := by
      rw [← pow_add]; congr 1; omega
    rw [h2]
    calc m * 2 ^ j ≤ m * 2 ^ (k - 1) := Nat.mul_le_mul_left m h1
      _ < 2 ^ 24 * 2 ^ (k - 1) := Nat.mul_lt_mul_of_pos_right hm (by positivity)

theorem binade_le (n d : Nat) (hk : 1 ≤ ilog2 (n / d) - 23) :
    2 ^ (ilog2 (n / d) - 23 + 23) * d ≤ n := by
  have h1 : 1 ≤ n / d := by
    by_contra hc
    have : n / d = 0 := Nat.lt_one_iff.mp (not_le.mp hc)
    rw [this] at hk
    simp [ilog2, ilog2Aux] at hk
  have h2 := pow_ilog2_le (n / d) h1
  have h3 : ilog2 (n / d) - 23 + 23 = ilog2 (n / d) := by omega
  rw [h3]
  calc 2 ^ ilog2 (n / d) * d ≤ n / d * d := Nat.mul_le_mul_right d h2
    _ ≤ n := Nat.div_mul_le_self n d

theorem roundNat_le (n d r : Nat) (hd : 0 < d) (hr : Rep r) (h : n ≤ r * d) :
    roundNat n d ≤ r := by
  unfold roundNat
  simp only
  set k := ilog2 (n / d) - 23 with hk
  rcases hr.dvd_or_lt k with ⟨t, ht⟩ | ⟨hk1, hlt⟩
  · have h1 : n ≤ t * (d * 2 ^ k) := by
      calc n ≤ r * d := h
        _ = t * (d * 2 ^ k) := by rw [ht]; ring
    have := roundHalfEvenDiv_le n (d * 2 ^ k) t (by positivity) h1
    calc roundHalfEvenDiv n (d * 2 ^ k) * 2 ^ k ≤ t * 2 ^ k := Nat.mul_le_mul_right _ this
      _ = r := by rw [ht]; ring
  · exfalso
    have h2 : 2 ^ (k + 23) * d ≤ n := binade_le n d hk1
    have h3 : r * d < 2 ^ (k + 23) * d := Nat.mul_lt_mul_of_pos_right hlt hd
    omega

theorem le_roundNat (n d r : Nat) (hd : 0 < d) (hr : Rep r) (h : r * d ≤ n) :
    r ≤ roundNat n d := by
  unfold roundNat
  simp only
  set k := ilog2 (n / d) - 23 with hk
  rcases hr.dvd_or_lt k with ⟨t, ht⟩ | ⟨hk1, hlt⟩
  · have h1 : t * (d * 2 ^ k) ≤ n := by
      calc t * (d * 2 ^ k) = r * d := by rw [ht]; ring
        _ ≤ n := h
    have := le_roundHalfEvenDiv n (d * 2 ^ k) t (by positivity) h1
    calc r = t * 2 ^ k := by rw [ht]; ring
      _ ≤ roundHalfEvenDiv n (d * 2 ^ k) * 2 ^ k := Nat.mul_le_mul_right _ this
  · have h2 : 2 ^ (k + 23) * d ≤ n := binade_le n d hk1
    have h4 : 2 ^ 23 * (d * 2 ^ k) ≤ n := by
      calc 2 ^ 23 * (d * 2 ^ k) = 2 ^ (k + 23) * d := by rw [pow_add]; ring
        _ ≤ n := h2
    have h5 := le_roundHalfEvenDiv n (d * 2 ^ k) (2 ^ 23) (by positivity) h4
    calc r ≤ 2 ^ (k + 23) := le_of_lt hlt
      _ = 2 ^ 23 * 2 ^ k := by rw [pow_add]; ring
      _ ≤ roundHalfEvenDiv n (d * 2 ^ k) * 2 ^ k := Nat.mul_le_mul_right _ h5

theorem roundNat_eq (n d r : Nat) (hd : 0 < d) (hr : Rep r) (h : n = r * d) :
    roundNat n d = r :=
  le_antisymm (roundNat_le n d r hd hr (le_of_eq h)) (le_roundNat n d r hd hr (le_of_eq h.symm))

theorem round_natCast (n d : Nat) : round (n : Int) d = (roundNat n d : Int) := by
  unfold round
  rcases Nat.eq_zero_or_pos n with h | h
  · subst h
    simp [roundNat, roundHalfEvenDiv, ilog2, ilog2Aux]
  · have : Int.sign (n : Int) = 1 := Int.sign_eq_one_of_pos (by exact_mod_cast h)
    rw [this]
    simp

end F32

namespace F32

theorem unit_eq_two_mul : unit = 2 * 2 ^ 148 := by
  unfold unit
  rw [show (149 : Nat) = 148 + 1 from rfl, pow_succ, Nat.mul_comm]

theorem unit_pos : 0 < unit := by unfold unit; positivity

theorem half_eq : half = ((2 ^ 148 : Nat) : Int) := by unfold half; push_cast

theorem Rep.natCast_mul_unit (a : Nat) (h : a < 2 ^ 24) : Rep (a * unit) :=
  ⟨a, 149, h, rfl⟩

theorem Rep.zero : Rep 0 := ⟨0, 0, by positivity, by simp⟩

theorem ofInt_natCast (a : Nat) : ofInt (a : Int) = (roundNat (a * unit) 1 : Int) := by
  unfold ofInt
  rw [← round_natCast]
  push_cast
  rfl

/-- Integers below `2^24` convert to `float` exactly. -/
theorem ofInt_exact (a : Nat) (h : a < 2 ^ 24) : ofInt (a : Int) = ((a * unit : Nat) : Int) := by
  rw [ofInt_natCast, roundNat_eq (a * unit) 1 (a * unit) Nat.one_pos (Rep.natCast_mul_unit a h) (by simp)]

theorem ofInt_zero : ofInt 0 = 0 := by
  have := ofInt_exact 0 (by positivity)
  simpa using this

theorem mul_zero_right (a : Int) : mul a 0 = 0 := by
  unfold mul round
  simp

/-- The product of two integers is exact when it stays below `2^24`. -/
theorem mul_exact (a b : Nat) (h : a * b < 2 ^ 24) :
    mul ((a * unit : Nat) : Int) ((b * unit : Nat) : Int) = ((a * b * unit : Nat) : Int) := by
  unfold mul
  rw [← Nat.cast_mul, round_natCast,
    roundNat_eq (a * unit * (b * unit)) unit (a * b * unit) unit_pos
      (Rep.natCast_mul_unit (a * b) h) (by ring)]

/-- The sum of two integers is exact when it stays below `2^24`. -/
theorem add_exact (a b : Nat) (h : a + b < 2 ^ 24) :
    add ((a * unit : Nat) : Int) ((b * unit : Nat) : Int) = (((a + b) * unit : Nat) : Int) := by
  unfold add
  rw [← Nat.cast_add, round_natCast,
    roundNat_eq (a * unit + b * unit) 1 ((a + b) * unit) Nat.one_pos
      (Rep.natCast_mul_unit (a + b) h) (by ring)]

theorem div_natCast (a b : Nat) (hb : 0 < b) :
    div (a : Int) (b : Int) = some ((roundNat (a * unit) b : Nat) : Int) := by
  unfold div
  have hb0 : (b : Int) ≠ 0 := by exact_mod_cast hb.ne.symm
  have hs : Int.sign (b : Int) = 1 := Int.sign_eq_one_of_pos (by exact_mod_cast hb)
  rw [if_neg hb0, hs, ← Nat.cast_mul, round_natCast]
  simp

theorem toInt_natCast (s K : Nat) (h1 : K * unit ≤ s) (h2 : s < (K + 1) * unit)
    (hK : K ≤ 2147483647) : toInt (s : Int) = some (K : Int) := by
  unfold toInt
  have hdiv : s / unit = K := by
    apply Nat.div_eq_of_lt_le
    · exact h1
    · exact h2
  have ht : Int.tdiv (s : Int) (unit : Int) = (K : Int) := by
    rw [Int.tdiv_eq_ediv (by positivity) (by positivity)]
    rw [← hdiv]
    norm_cast
  simp only [ht]
  rw [if_pos]
  constructor
  · have : (0 : Int) ≤ K := by positivity
    omega
  · exact_mod_cast hK

end F32

namespace F32

theorem add_half_natCast (q : Nat) : add (q : Int) half = ((roundNat (q + 2 ^ 148) 1 : Nat) : Int) := by
  unfold add
  rw [half_eq, ← Nat.cast_add, round_natCast]

theorem ilog2_le_of_le (n b : Nat) (hn : 1 ≤ n) (h : n ≤ 2 ^ b) : ilog2 n ≤ b := by
  have h1 := pow_ilog2_le n hn
  exact (Nat.pow_le_pow_iff_right (by norm_num)).1 (le_trans h1 h)

/-! Arithmetic of the grid used to bound the rounded quotient. -/

theorem grid_B_lt (m n K I B : Nat) (f1 : 2 * n * K ≤ 2 * m + n) (hI2 : I ≤ 2 * n)
    (hB : B + 1 = (2 * K + 2) * I) (h : m + 2 * n ≤ 4194304) : B < 16777216 := by
  have h1 : (2 * K + 2) * I ≤ (2 * K + 2) * (2 * n) := Nat.mul_le_mul_left _ hI2
  have h2 : (2 * K + 2) * (2 * n) = 2 * (2 * n * K) + 4 * n := by ring
  omega

theorem grid_quot_up (m n K I A : Nat) (f2 : 2 * m + n < 2 * n * (K + 1)) (hnI : n < I)
    (hA : A + 1 = (2 * K + 1) * I) : 2 * m * I ≤ A * n := by
  have g1 : A * n + n = (2 * n * K + n) * I := by
    calc A * n + n = (A + 1) * n := by ring
      _ = (2 * n * K + n) * I := by rw [hA]; ring
  have g0 : 2 * n * (K + 1) = 2 * n * K + 2 * n := by ring
  have g2 : (2 * m + 1) * I ≤ (2 * n * K + n) * I := Nat.mul_le_mul_right I (by omega)
  have g3 : (2 * m + 1) * I = 2 * m * I + I := by ring
  omega

theorem grid_quot_lo (m n K L : Nat) (f1 : 2 * n * K ≤ 2 * m + n) (hL : L + 1 = 2 * K) :
    L * n ≤ 2 * m := by
  have g1 : L * n + n = 2 * n * K := by
    calc L * n + n = (L + 1) * n := by ring
      _ = 2 * n * K := by rw [hL]; ring
  omega

/-- Rounding the quotient of two small integers to `float` and then applying
`qRound` gives the nearest integer of the exact quotient, halves up. -/
theorem qRound_div_small (m n : Nat) (hn : 1 ≤ n) (h : m + 2 * n ≤ 2 ^ 22) :
    qRound (roundNat (m * unit * unit) (n * unit) : Nat) = some ((nearestHalfUp m n : Nat) : Int) := by
  obtain ⟨qf, hqf⟩ : ∃ q, q = roundNat (m * unit * unit) (n * unit) := ⟨_, rfl⟩
  obtain ⟨K, hK⟩ : ∃ K, K = nearestHalfUp m n := ⟨_, rfl⟩
  rw [← hqf, ← hK]
  have h22 : (2:Nat) ^ 22 = 4194304 := by norm_num
  have h24 : (2:Nat) ^ 24 = 16777216 := by norm_num
  rw [h22] at h
  -- the facts about K
  have f1 : 2 * n * K ≤ 2 * m + n := by
    rw [hK]; unfold nearestHalfUp; exact Nat.mul_div_le (2 * m + n) (2 * n)
  have f2 : 2 * m + n < 2 * n * (K + 1) := by
    rw [hK]; unfold nearestHalfUp; exact Nat.lt_mul_div_succ (2 * m + n) (by omega)
  have hKle : K ≤ 2 * n * K := Nat.le_mul_of_pos_left K (by omega)
  -- the grid
  have hi : ilog2 n ≤ 22 := ilog2_le_of_le n 22 hn (by omega)
  obtain ⟨I, hI⟩ : ∃ I, I = 2 ^ (ilog2 n + 1) := ⟨_, rfl⟩
  obtain ⟨H, hH⟩ : ∃ H, H = 2 ^ (148 - (ilog2 n + 1)) := ⟨_, rfl⟩
  have hnI : n < I := by rw [hI]; exact lt_pow_ilog2_succ n hn
  have hI2 : I ≤ 2 * n := by
    rw [hI, pow_succ]; have := pow_ilog2_le n hn; omega
  have hW : (2:Nat) ^ 148 = I * H := by
    rw [hI, hH, ← pow_add]; congr 1; omega
  have hHpos : 0 < H := by rw [hH]; positivity
  have hIpos : 0 < I := by omega
  have hnU : 0 < n * unit := Nat.mul_pos (by omega) unit_pos
  have hU : unit = 2 * (I * H) := by rw [unit_eq_two_mul, hW]
  obtain ⟨A, hA⟩ : ∃ A, A + 1 = (2 * K + 1) * I := ⟨(2 * K + 1) * I - 1, by
    have : 0 < (2 * K + 1) * I := Nat.mul_pos (by omega) hIpos
    omega⟩
  obtain ⟨B, hB⟩ : ∃ B, B + 1 = (2 * K + 2) * I := ⟨(2 * K + 2) * I - 1, by
    have : 0 < (2 * K + 2) * I := Nat.mul_pos (by omega) hIpos
    omega⟩
  have hAB : A + I = B := by
    have : (2 * K + 2) * I = (2 * K + 1) * I + I := by ring
    omega
  have hB24 : B < 2 ^ 24 := by rw [h24]; exact grid_B_lt m n K I B f1 hI2 hB h
  have hA24 : A < 2 ^ 24 := by omega
  -- upper bound on the rounded quotient
  have hq_up : qf ≤ A * H := by
    rw [hqf]
    apply roundNat_le _ _ _ hnU ⟨A, 148 - (ilog2 n + 1), hA24, by rw [hH]⟩
    rw [hU]
    have e1 : 2 * m * I ≤ A * n := grid_quot_up m n K I A f2 hnI hA
    calc m * (2 * (I * H)) * (2 * (I * H)) = (2 * m * I) * (H * (2 * (I * H))) := by ring
      _ ≤ (A * n) * (H * (2 * (I * H))) := Nat.mul_le_mul_right _ e1
      _ = A * H * (n * (2 * (I * H))) := by ring
  -- the sum with 0.5f
  have hsum_up : roundNat (qf + 2 ^ 148) 1 ≤ B * H := by
    apply roundNat_le _ _ _ Nat.one_pos ⟨B, 148 - (ilog2 n + 1), hB24, by rw [hH]⟩
    rw [hW, ← hAB, Nat.mul_one, Nat.add_mul]
    omega
  have hsum_lo : K * unit ≤ roundNat (qf + 2 ^ 148) 1 := by
    apply le_roundNat _ _ _ Nat.one_pos (Rep.natCast_mul_unit K (by omega))
    rcases Nat.eq_zero_or_pos K with hK0 | hKpos
    · rw [hK0]; simp
    · obtain ⟨L, hL⟩ : ∃ L, L + 1 = 2 * K := ⟨2 * K - 1, by omega⟩
      have hq_lo : L * (I * H) ≤ qf := by
        rw [hqf]
        apply le_roundNat _ _ _ hnU ⟨L, 148, by omega, by rw [hW]⟩
        rw [hU]
        have e2 : L * n ≤ 2 * m := grid_quot_lo m n K L f1 hL
        calc L * (I * H) * (n * (2 * (I * H))) = (L * n) * ((I * H) * (2 * (I * H))) := by ring
          _ ≤ (2 * m) * ((I * H) * (2 * (I * H))) := Nat.mul_le_mul_right _ e2
          _ = m * (2 * (I * H)) * (2 * (I * H)) := by ring
      rw [hW, hU, Nat.mul_one]
      have : K * (2 * (I * H)) = L * (I * H) + I * H := by
        calc K * (2 * (I * H)) = (2 * K) * (I * H) := by ring
          _ = L * (I * H) + I * H := by rw [← hL]; ring
      omega
  have hsum_lt : roundNat (qf + 2 ^ 148) 1 < (K + 1) * unit := by
    have h1 : B * H < (B + 1) * H := Nat.mul_lt_mul_of_pos_right (Nat.lt_succ_self B) hHpos
    have h2 : (K + 1) * unit = (B + 1) * H := by rw [hU, hB]; ring
    omega
  unfold qRound
  rw [if_pos (by positivity), add_half_natCast]
  exact toInt_natCast _ K hsum_lo hsum_lt (by omega)

end F32

/-! ## rollingAverage -/

theorem nearestHalfUp_eq_floor (m n : Nat) (hn : 0 < n) :
    ((nearestHalfUp m n : Nat) : Int) = ⌊(m : ℚ) / n + 1 / 2⌋ := by
  symm
  rw [Int.floor_eq_iff]
  have hnq : (0 : ℚ) < n := by exact_mod_cast hn
  have h2n : 0 < 2 * n := by omega
  have f1 : 2 * n * nearestHalfUp m n ≤ 2 * m + n := Nat.mul_div_le (2 * m + n) (2 * n)
  have f2 : 2 * m + n < 2 * n * (nearestHalfUp m n + 1) := Nat.lt_mul_div_succ (2 * m + n) h2n
  have g1 : (2 : ℚ) * n * nearestHalfUp m n ≤ 2 * m + n := by exact_mod_cast f1
  have g2 : (2 : ℚ) * m + n < 2 * n * (nearestHalfUp m n + 1) := by exact_mod_cast f2
  have e : (m : ℚ) / n + 1 / 2 = (2 * m + n) / (2 * n) := by
    field_simp
    ring
  rw [e]
  push_cast
  constructor
  · rw [le_div_iff₀ (by positivity)]
    linarith
  · rw [div_lt_iff₀ (by positivity)]
    linarith

namespace TokenTimer

theorem rollingAverage_core (oldAvg : Int) (p x n : Nat) (hn : 1 ≤ n)
    (hp : F32.mul (F32.ofInt oldAvg) (F32.ofInt ((n : Int) - 1)) = ((p * F32.unit : Nat) : Int))
    (h : p + x + 2 * n ≤ 4194304) :
    rollingAverage oldAvg (x : Int) (n : Int) = some ((nearestHalfUp (p + x) n : Nat) : Int) := by
  have h24 : (2:Nat) ^ 24 = 16777216 := by norm_num
  have hsum : F32.add ((p * F32.unit : Nat) : Int) (F32.ofInt (x : Int))
      = (((p + x) * F32.unit : Nat) : Int) := by
    rw [F32.ofInt_exact x (by omega), F32.add_exact p x (by omega)]
  have hdiv : F32.div (((p + x) * F32.unit : Nat) : Int) (F32.ofInt (n : Int))
      = some ((F32.roundNat ((p + x) * F32.unit * F32.unit) (n * F32.unit) : Nat) : Int) := by
    rw [F32.ofInt_exact n (by omega)]
    exact F32.div_natCast _ _ (Nat.mul_pos (by omega) F32.unit_pos)
  unfold rollingAverage
  have hge : ¬ ((n : Int) - 1 < -2147483648) := by omega
  rw [if_neg hge, hp, hsum, hdiv]
  exact F32.qRound_div_small _ n hn (by norm_num; omega)

theorem rollingAverage_first (a : Int) (x : Nat) (h : x + 2 ≤ 4194304) :
    rollingAverage a (x : Int) 1 = some (x : Int) := by
  have hp : F32.mul (F32.ofInt a) (F32.ofInt (((1 : Nat) : Int) - 1)) = ((0 * F32.unit : Nat) : Int) := by
    simp [F32.ofInt_zero, F32.mul_zero_right]
  have := rollingAverage_core a 0 x 1 le_rfl hp (by omega)
  have hx : nearestHalfUp (0 + x) 1 = x := by unfold nearestHalfUp; omega
  rw [hx] at this
  exact_mod_cast this

set_option maxRecDepth 100000 in
/-- C1 (counterexample).  `float` holds 24 significant bits, so 16777217 is
converted to 16777216.0f: `rollingAverage(0, 16777217, 1)` returns 16777216,
while the integer nearest to `(0 * 0 + 16777217) / 1` is 16777217. -/
theorem rollingAverage_not_nearest :
    rollingAverage 0 16777217 1 = some 16777216 ∧
    nearestHalfUp (0 * (1 - 1) + 16777217) 1 = 16777217 ∧
    rollingAverage 0 16777217 1 ≠ some ((nearestHalfUp (0 * (1 - 1) + 16777217) 1 : Nat) : Int) := by
  have h1 : rollingAverage 0 16777217 1 = some 16777216 := by decide
  have h2 : nearestHalfUp (0 * (1 - 1) + 16777217) 1 = 16777217 := by decide
  refine ⟨h1, h2, ?_⟩
  rw [h1, h2]
  decide

theorem rollingAverage_natCast (oldAvg newNumber n : Nat) (hn : 1 ≤ n)
    (h : oldAvg * (n - 1) + newNumber + 2 * n ≤ 4194304) :
    rollingAverage (oldAvg : Int) (newNumber : Int) (n : Int)
      = some ((nearestHalfUp (oldAvg * (n - 1) + newNumber) n : Nat) : Int) := by
  obtain ⟨b, hb⟩ : ∃ b, b + 1 = n := ⟨n - 1, by omega⟩
  have hb1 : n - 1 = b := by omega
  have hcast : (n : Int) - 1 = (b : Int) := by rw [← hb]; push_cast; ring
  rw [hb1] at h ⊢
  have h24 : (2:Nat) ^ 24 = 16777216 := by norm_num
  have hprod : F32.mul (F32.ofInt (oldAvg : Int)) (F32.ofInt ((n : Int) - 1))
      = ((oldAvg * b * F32.unit : Nat) : Int) := by
    rw [hcast]
    rcases Nat.eq_zero_or_pos b with hb0 | hbpos
    · subst hb0
      simp [F32.ofInt_zero, F32.mul_zero_right]
    · have ha : oldAvg ≤ oldAvg * b := Nat.le_mul_of_pos_right oldAvg hbpos
      rw [F32.ofInt_exact oldAvg (by omega), F32.ofInt_exact b (by omega),
        F32.mul_exact oldAvg b (by omega)]
  exact rollingAverage_core oldAvg (oldAvg * b) newNumber n hn hprod h

/-- C1 (amended).  For all non-negative integers `oldAvg`, `newNumber` and every
`n ≥ 1` with `oldAvg * (n - 1) + newNumber + 2 * n ≤ 4194304` (`2^22`),
`rollingAverage(oldAvg, newNumber, n)` returns exactly the integer nearest to
`(oldAvg * (n - 1) + newNumber) / n`, a quotient halfway between two integers
being rounded up. -/
theorem rollingAverage_nearest_in_range (oldAvg newNumber n : Nat) (hn : 1 ≤ n)
    (h : oldAvg * (n - 1) + newNumber + 2 * n ≤ 4194304) :
    rollingAverage (oldAvg : Int) (newNumber : Int) (n : Int)
      = some ((nearestHalfUp (oldAvg * (n - 1) + newNumber) n : Nat) : Int) :=
  rollingAverage_natCast oldAvg newNumber n hn h

/-- C1 (witness): `rollingAverage(10, 20, 4)` is `⌊50 / 4 + 1/2⌋ = 13`. -/
theorem rollingAverage_nearest_in_range_witness :
    10 * (4 - 1) + 20 + 2 * 4 ≤ 4194304 ∧
    rollingAverage ((10 : Nat) : Int) ((20 : Nat) : Int) ((4 : Nat) : Int)
      = some ((nearestHalfUp (10 * (4 - 1) + 20) 4 : Nat) : Int) :=
  ⟨by decide, rollingAverage_nearest_in_range 10 20 4 (by decide) (by decide)⟩

set_option maxRecDepth 100000 in
/-- Single precision moves a quotient just below a half onto the half:
`(2048 * 4096 + 4096) / 4097 = 2048.4998...` becomes `2048.5f`, and
`rollingAverage(2048, 4096, 4097)` returns 2049 although every operand and the
sum are exact in `float` and the nearest integer is 2048. -/
theorem rollingAverage_half_ulp :
    rollingAverage 2048 4096 4097 = some 2049 ∧ nearestHalfUp (2048 * (4097 - 1) + 4096) 4097 = 2048 := by
  constructor <;> decide

end TokenTimer

namespace TokenTimer

/-- One exact step of the running value: the new value stays between the bounds
of the old value and the sample, and its distance to the exact sum grows by at
most half a sample count. -/
theorem nearestHalfUp_step (lo hi v x j S : Nat) (hv : lo ≤ v ∧ v ≤ hi) (hx : lo ≤ x ∧ x ≤ hi)
    (h1 : 4 * (j * v) + 2 ≤ 4 * S + j * (j + 1)) (h2 : 4 * S + 2 ≤ 4 * (j * v) + j * (j + 1)) :
    lo ≤ nearestHalfUp (v * j + x) (j + 1) ∧ nearestHalfUp (v * j + x) (j + 1) ≤ hi ∧
    4 * ((j + 1) * nearestHalfUp (v * j + x) (j + 1)) + 2 ≤ 4 * (S + x) + (j + 1) * (j + 1 + 1) ∧
    4 * (S + x) + 2 ≤ 4 * ((j + 1) * nearestHalfUp (v * j + x) (j + 1)) + (j + 1) * (j + 1 + 1) := by
  obtain ⟨w, hw⟩ : ∃ w, w = nearestHalfUp (v * j + x) (j + 1) := ⟨_, rfl⟩
  rw [← hw]
  have f1 : 2 * (j + 1) * w ≤ 2 * (v * j + x) + (j + 1) := by
    rw [hw]; exact Nat.mul_div_le _ _
  have f2 : 2 * (v * j + x) + (j + 1) < 2 * (j + 1) * (w + 1) := by
    rw [hw]; exact Nat.lt_mul_div_succ _ (by omega)
  have e1 : 2 * (j + 1) * w = 2 * ((j + 1) * w) := by ring
  have e2 : 2 * (j + 1) * (w + 1) = 2 * ((j + 1) * w) + 2 * j + 2 := by ring
  have e3 : v * j = j * v := Nat.mul_comm v j
  have e4 : (j + 1) * (j + 1 + 1) = j * (j + 1) + 2 * j + 2 := by ring
  have blo : lo * j ≤ v * j := Nat.mul_le_mul_right j hv.1
  have bhi : v * j ≤ hi * j := Nat.mul_le_mul_right j hv.2
  have e5 : (j + 1) * lo = lo * j + lo := by ring
  have e6 : (j + 1) * hi = hi * j + hi := by ring
  refine ⟨?_, ?_, by omega, by omega⟩
  · by_contra hc
    have hlt : w + 1 ≤ lo := by omega
    have := Nat.mul_le_mul_left (j + 1) hlt
    have e7 : (j + 1) * (w + 1) = (j + 1) * w + j + 1 := by ring
    omega
  · by_contra hc
    have hlt : hi + 1 ≤ w := by omega
    have := Nat.mul_le_mul_left (j + 1) hlt
    have e7 : (j + 1) * (hi + 1) = hi * j + hi + j + 1 := by ring
    omega

theorem runningAverageFrom_bounds (lo hi : Nat) :
    ∀ (xs : List Nat) (j v S : Nat), 1 ≤ j → lo ≤ v ∧ v ≤ hi →
      (∀ x ∈ xs, lo ≤ x ∧ x ≤ hi) → (hi + 2) * (j + xs.length) ≤ 4194304 →
      4 * (j * v) + 2 ≤ 4 * S + j * (j + 1) → 4 * S + 2 ≤ 4 * (j * v) + j * (j + 1) →
      ∃ w : Nat, runningAverageFrom (v : Int) ((j : Int) + 1) (xs.map (fun x => (x : Int)))
          = some (w : Int) ∧ lo ≤ w ∧ w ≤ hi ∧
        4 * ((j + xs.length) * w) + 2 ≤ 4 * (S + xs.sum) + (j + xs.length) * (j + xs.length + 1) ∧
        4 * (S + xs.sum) + 2 ≤ 4 * ((j + xs.length) * w) + (j + xs.length) * (j + xs.length + 1) := by
  intro xs
  induction xs with
  | nil =>
    intro j v S _ hv _ _ h1 h2
    exact ⟨v, by simp [runningAverageFrom], hv.1, hv.2, by simpa using h1, by simpa using h2⟩
  | cons x xs ih =>
    intro j v S hj hv hb hr h1 h2
    have hx := hb x (List.mem_cons_self x xs)
    have hlen : j + (x :: xs).length = j + 1 + xs.length := by
      simp only [List.length_cons]; omega
    rw [hlen] at hr ⊢
    obtain ⟨g1, g2, g3, g4⟩ := nearestHalfUp_step lo hi v x j S hv hx h1 h2
    have hrange : v * (j + 1 - 1) + x + 2 * (j + 1) ≤ 4194304 := by
      have a1 : v * j ≤ hi * j := Nat.mul_le_mul_right j hv.2
      have a2 : (hi + 2) * (j + 1) ≤ (hi + 2) * (j + 1 + xs.length) :=
        Nat.mul_le_mul_left _ (by omega)
      have a3 : (hi + 2) * (j + 1) = hi * j + hi + 2 * j + 2 := by ring
      have a4 : j + 1 - 1 = j := by omega
      rw [a4]
      omega
    have hstep := rollingAverage_natCast v x (j + 1) (by omega) hrange
    have a4 : j + 1 - 1 = j := by omega
    rw [a4] at hstep
    obtain ⟨w, hw1, hw2, hw3, hw4, hw5⟩ := ih (j + 1) (nearestHalfUp (v * j + x) (j + 1)) (S + x)
      (by omega) ⟨g1, g2⟩ (fun y hy => hb y (List.mem_cons_of_mem x hy)) hr g3 g4
    refine ⟨w, ?_, hw2, hw3, ?_, ?_⟩
    · simp only [List.map_cons, runningAverageFrom]
      have hcast : ((j : Int) + 1) = ((j + 1 : Nat) : Int) := by push_cast; rfl
      rw [hcast, hstep]
      simp only
      rw [← hcast]
      exact_mod_cast hw1
    · simp only [List.sum_cons]
      rw [← Nat.add_assoc]
      exact hw4
    · simp only [List.sum_cons]
      rw [← Nat.add_assoc]
      exact hw5

set_option maxRecDepth 100000 in
/-- C2 (counterexample).  Feeding 1, 0, 0 gives the running values 1, 1
(`0.5` rounds up) and 1 (`(1 * 2 + 0) / 3 = 0.67` rounds up), while the exact
mean `1/3` rounds to 0. -/
theorem runningAverage_not_rounded_mean :
    runningAverage 0 [1, 0, 0] = some 1 ∧
    nearestHalfUp ([1, 0, 0] : List Nat).sum ([1, 0, 0] : List Nat).length = 0 ∧
    runningAverage 0 [1, 0, 0]
      ≠ some ((nearestHalfUp ([1, 0, 0] : List Nat).sum ([1, 0, 0] : List Nat).length : Nat) : Int) := by
  have h1 : runningAverage 0 [1, 0, 0] = some 1 := by decide
  have h2 : nearestHalfUp ([1, 0, 0] : List Nat).sum ([1, 0, 0] : List Nat).length = 0 := by decide
  refine ⟨h1, h2, ?_⟩
  rw [h1, h2]
  decide

/-- C2 (amended).  For every non-empty sequence `x_1 .. x_k` of non-negative
integers between `lo` and `hi` with `(hi + 2) * k ≤ 4194304`, fed one at a time
from any initial `a`, the running value `avg_k` is defined, lies between `lo` and
`hi`, and differs from the exact mean by at most `(k^2 + k - 2) / (4 k)`, that is
`|4 (k avg_k - (x_1 + ... + x_k))| ≤ k (k + 1) - 2`; for `k ≤ 2` it is the exact
mean rounded to the nearest integer, halves up. -/
theorem runningAverage_near_mean (a : Int) (xs : List Nat) (lo hi : Nat) (hne : xs ≠ [])
    (hb : ∀ x ∈ xs, lo ≤ x ∧ x ≤ hi) (hr : (hi + 2) * xs.length ≤ 4194304) :
    ∃ v : Nat, runningAverage a (xs.map (fun x => (x : Int))) = some (v : Int) ∧
      lo ≤ v ∧ v ≤ hi ∧
      4 * (xs.length * v) + 2 ≤ 4 * xs.sum + xs.length * (xs.length + 1) ∧
      4 * xs.sum + 2 ≤ 4 * (xs.length * v) + xs.length * (xs.length + 1) ∧
      (xs.length ≤ 2 → v = nearestHalfUp xs.sum xs.length) := by
  cases xs with
  | nil => exact absurd rfl hne
  | cons x xs =>
    have hx := hb x (List.mem_cons_self x xs)
    have hlen : (x :: xs).length = 1 + xs.length := by
      simp only [List.length_cons]; omega
    rw [hlen] at hr ⊢
    have hx22 : x + 2 ≤ 4194304 := by
      have a2 : (hi + 2) * 1 ≤ (hi + 2) * (1 + xs.length) := Nat.mul_le_mul_left _ (by omega)
      omega
    have hfirst := rollingAverage_first a x hx22
    obtain ⟨w, hw1, hw2, hw3, hw4, hw5⟩ := runningAverageFrom_bounds lo hi xs 1 x x le_rfl hx
      (fun y hy => hb y (List.mem_cons_of_mem x hy)) hr (by omega) (by omega)
    have hrun : runningAverage a ((x :: xs).map (fun x => (x : Int))) = some (w : Int) := by
      unfold runningAverage
      simp only [List.map_cons, runningAverageFrom, hfirst]
      exact hw1
    refine ⟨w, hrun, hw2, hw3, by simpa using hw4, by simpa using hw5, ?_⟩
    intro hk
    cases xs with
    | nil =>
      simp only [List.map_nil, runningAverageFrom, Option.some.injEq] at hw1
      have : w = x := by exact_mod_cast hw1.symm
      subst this
      simp [nearestHalfUp]
      omega
    | cons y ys =>
      cases ys with
      | nil =>
        have hy := hb y (by simp)
        have hrange : x * (2 - 1) + y + 2 * 2 ≤ 4194304 := by
          simp only [List.length_cons, List.length_nil] at hr
          omega
        have hstep := rollingAverage_natCast x y 2 (by omega) hrange
        simp only [List.map_cons, List.map_nil, runningAverageFrom] at hw1
        have hcast : ((1 : Nat) : Int) + 1 = ((2 : Nat) : Int) := by norm_num
        rw [hcast, hstep] at hw1
        simp only [Option.some.injEq] at hw1
        have hw : w = nearestHalfUp (x * (2 - 1) + y) 2 := by exact_mod_cast hw1.symm
        rw [hw]
        simp
      | cons z zs =>
        simp only [List.length_cons] at hk
        omega

/-- C2 (witness): the samples 1, 0, 0, between 0 and 1. -/
theorem runningAverage_near_mean_witness :
    (∀ x ∈ ([1, 0, 0] : List Nat), 0 ≤ x ∧ x ≤ 1) ∧
    (1 + 2) * ([1, 0, 0] : List Nat).length ≤ 4194304 ∧
    ∃ v : Nat, runningAverage 0 (([1, 0, 0] : List Nat).map (fun x => (x : Int))) = some (v : Int) ∧
      0 ≤ v ∧ v ≤ 1 ∧
      4 * (([1, 0, 0] : List Nat).length * v) + 2
        ≤ 4 * ([1, 0, 0] : List Nat).sum
          + ([1, 0, 0] : List Nat).length * (([1, 0, 0] : List Nat).length + 1) ∧
      4 * ([1, 0, 0] : List Nat).sum + 2
        ≤ 4 * (([1, 0, 0] : List Nat).length * v)
          + ([1, 0, 0] : List Nat).length * (([1, 0, 0] : List Nat).length + 1) ∧
      (([1, 0, 0] : List Nat).length ≤ 2 →
        v = nearestHalfUp ([1, 0, 0] : List Nat).sum ([1, 0, 0] : List Nat).length) :=
  ⟨by decide, by decide,
    runningAverage_near_mean 0 [1, 0, 0] 0 1 (by decide) (by decide) (by decide)⟩

end TokenTimer

/-! ## The timer as a state machine -/

namespace TokenTimer

theorem inc_running_flush (now junk c : Int) (s : TokenTimer) (h : s.m_time = ⟨some c⟩)
    (hf : 999 < now - c) :
    inc now junk s = (⟨⟨some now⟩, s.m_elapsed + (now - c), (s.m_tokens + 1) % 4294967296⟩,
      [⟨(s.m_tokens + 1) % 4294967296, s.m_elapsed + (now - c)⟩]) := by
  simp [inc, handleTimeout, QElapsedTimer.isValid, QElapsedTimer.elapsed, QElapsedTimer.restart,
    QElapsedTimer.start, h, hf]

theorem inc_running_quiet (now junk c : Int) (s : TokenTimer) (h : s.m_time = ⟨some c⟩)
    (hf : ¬ 999 < now - c) :
    inc now junk s = (⟨⟨some c⟩, s.m_elapsed, (s.m_tokens + 1) % 4294967296⟩, []) := by
  simp [inc, handleTimeout, QElapsedTimer.isValid, QElapsedTimer.elapsed, QElapsedTimer.restart,
    QElapsedTimer.start, h, hf]

theorem inc_not_running (now junk : Int) (s : TokenTimer) (h : s.m_time = ⟨none⟩) :
    inc now junk s = (⟨⟨some now⟩, s.m_elapsed, (s.m_tokens + 1) % 4294967296⟩, []) := by
  simp [inc, handleTimeout, QElapsedTimer.isValid, QElapsedTimer.elapsed, QElapsedTimer.restart,
    QElapsedTimer.start, h]

theorem timer_cases (s : TokenTimer) : s.m_time = ⟨none⟩ ∨ ∃ c, s.m_time = ⟨some c⟩ := by
  rcases s with ⟨⟨_ | c⟩, _, _⟩
  · exact Or.inl rfl
  · exact Or.inr ⟨c, rfl⟩

end TokenTimer

namespace TokenTimer

/-- C3 (counterexample).  On a timer whose clock is not running and whose 32 bit
token counter holds 4294967295, `inc()` at reading 5 leaves the counter at 0 and
starts the clock at 5 without flushing a report; the claim as worded (count up by
exactly one, clock untouched by a call that does not flush) fails there. -/
theorem inc_as_worded_fails :
    inc 5 0 ⟨⟨none⟩, 0, 4294967295⟩ = (⟨⟨some 5⟩, 0, 0⟩, []) ∧
    ¬ IncAsWorded 5 0 ⟨⟨none⟩, 0, 4294967295⟩ := by
  have h : inc 5 0 ⟨⟨none⟩, 0, 4294967295⟩ = (⟨⟨some 5⟩, 0, 0⟩, []) := by decide
  refine ⟨h, ?_⟩
  intro hw
  have h1 := hw.1
  rw [h] at h1
  exact absurd h1 (by decide)

/-- C3 (amended).  For every timer state and every clock reading, `inc()`
increases the token count by one modulo `2^32`, and flushes a report if and only
if at least 1000 ms have elapsed since the start point of the interval clock (a
clock that is not running is first started at the current reading).  A flushing
call adds the interval to the accumulated elapsed time, restarts the clock at the
current reading and reports the new count and the new accumulated time; a call
that does not flush leaves the accumulated time unchanged and the clock running
from that same start point. -/
theorem inc_step (now junk : Int) (s : TokenTimer) :
    (inc now junk s).1.m_tokens = (s.m_tokens + 1) % 4294967296 ∧
    ((inc now junk s).2.length = 1 ↔ 1000 ≤ now - clockStart now s) ∧
    (1000 ≤ now - clockStart now s →
      (inc now junk s).1.m_elapsed = s.m_elapsed + (now - clockStart now s) ∧
      (inc now junk s).1.m_time = ⟨some now⟩ ∧
      (inc now junk s).2 = [⟨(inc now junk s).1.m_tokens, (inc now junk s).1.m_elapsed⟩]) ∧
    (now - clockStart now s < 1000 →
      (inc now junk s).2 = [] ∧
      (inc now junk s).1.m_elapsed = s.m_elapsed ∧
      (inc now junk s).1.m_time = ⟨some (clockStart now s)⟩) := by
  rcases timer_cases s with h | ⟨c, h⟩
  · have hc : clockStart now s = now := by simp [clockStart, h]
    rw [inc_not_running now junk s h, hc]
    simp
  · have hc : clockStart now s = c := by simp [clockStart, h]
    rw [hc]
    by_cases hf : 999 < now - c
    · rw [inc_running_flush now junk c s h hf]
      have : 1000 ≤ now - c := by omega
      simp [this]
    · rw [inc_running_quiet now junk c s h hf]
      have h1 : ¬ 1000 ≤ now - c := by omega
      have h2 : now - c < 1000 := by omega
      simp [h1, h2]

/-- C6.  For every timer state and every clock reading, `stop()` emits exactly
one report, whatever the time since the interval clock was last restarted (no
threshold is tested), leaves the token count unchanged, and adds the elapsed time
that the interval clock returns to the accumulated elapsed time, which is the
time the report carries; for a running clock started at `c` that is `now - c`. -/
theorem stop_flushes_once (now junk : Int) (s : TokenTimer) :
    (stop now junk s).2.length = 1 ∧
    (stop now junk s).1.m_tokens = s.m_tokens ∧
    (stop now junk s).1.m_elapsed = s.m_elapsed + s.m_time.elapsed now junk ∧
    (stop now junk s).2 = [⟨s.m_tokens, (stop now junk s).1.m_elapsed⟩] ∧
    (∀ c, s.m_time = ⟨some c⟩ → (stop now junk s).1.m_elapsed = s.m_elapsed + (now - c)) := by
  refine ⟨rfl, rfl, rfl, rfl, ?_⟩
  intro c h
  simp [stop, handleTimeout, QElapsedTimer.restart, QElapsedTimer.elapsed, h]

theorem runIncFrom_running (junk : Int) :
    ∀ (ts : List Int) (idx : Nat) (s : TokenTimer), (∃ c, s.m_time = ⟨some c⟩) →
      ∃ c, (runIncFrom junk idx ts s).1.m_time = ⟨some c⟩ := by
  intro ts
  induction ts with
  | nil => intro idx s h; simpa [runIncFrom] using h
  | cons t ts ih =>
    intro idx s h
    obtain ⟨c, hc⟩ := h
    simp only [runIncFrom]
    apply ih
    by_cases hf : 999 < t - c
    · rw [inc_running_flush t junk c s hc hf]; exact ⟨t, rfl⟩
    · rw [inc_running_quiet t junk c s hc hf]; exact ⟨c, rfl⟩

/-- C7.  `start()` sets the token count and the accumulated elapsed time to 0,
leaves the interval clock invalid and emits no report.  The first `inc()` after
it starts the clock at its own reading, without a report; after any further
`inc()` calls the clock is running, and one more `inc()` leaves the start point of
the clock where it was unless it flushes a report. -/
theorem start_resets_and_clock_is_lazy (junk : Int) (s : TokenTimer) :
    (start s).1.m_tokens = 0 ∧ (start s).1.m_elapsed = 0 ∧
    (start s).1.m_time.isValid = false ∧ (start s).2 = [] ∧
    (∀ t, (inc t junk (start s).1).1.m_time = ⟨some t⟩ ∧ (inc t junk (start s).1).2 = []) ∧
    (∀ t ts u, (runInc junk (t :: ts) s).1.m_time.isValid = true ∧
      ((inc u junk (runInc junk (t :: ts) s).1).2 = [] →
        (inc u junk (runInc junk (t :: ts) s).1).1.m_time = (runInc junk (t :: ts) s).1.m_time)) := by
  refine ⟨rfl, rfl, rfl, rfl, ?_, ?_⟩
  · intro t
    rw [inc_not_running t junk (start s).1 rfl]
    exact ⟨rfl, rfl⟩
  · intro t ts u
    have hrun : ∃ c, (runInc junk (t :: ts) s).1.m_time = ⟨some c⟩ := by
      unfold runInc
      simp only [runIncFrom]
      apply runIncFrom_running
      rw [inc_not_running t junk (start s).1 rfl]
      exact ⟨t, rfl⟩
    obtain ⟨c, hc⟩ := hrun
    refine ⟨by simp [QElapsedTimer.isValid, hc], ?_⟩
    intro hq
    by_cases hf : 999 < u - c
    · rw [inc_running_flush u junk c _ hc hf] at hq
      simp at hq
    · rw [inc_running_quiet u junk c _ hc hf, hc]

end TokenTimer

namespace TokenTimer

theorem getLast_cons_le (c t : Int) (ts : List Int) (h : c ≤ t) :
    (c :: ts).getLast (List.cons_ne_nil c ts) ≤ (t :: ts).getLast (List.cons_ne_nil t ts) := by
  cases ts with
  | nil => simpa using h
  | cons u us => simp [List.getLast_cons_cons]

/-- Reports of a run of `inc()` calls on a running clock: each comes at least
1000 ms after the start point of the clock, consecutive ones are at least 1000 ms
apart, and there are at most as many as whole seconds up to the last reading. -/
theorem runIncFrom_spacing (junk : Int) :
    ∀ (ts : List Int) (idx : Nat) (s : TokenTimer) (c : Int), s.m_time = ⟨some c⟩ →
      List.Pairwise (· ≤ ·) (c :: ts) →
      (∀ e ∈ (runIncFrom junk idx ts s).2, c + 1000 ≤ e.time) ∧
      List.Chain' (fun a b : Emitted => a.time + 1000 ≤ b.time) (runIncFrom junk idx ts s).2 ∧
      ((runIncFrom junk idx ts s).2.length : Int) * 1000
        ≤ (c :: ts).getLast (List.cons_ne_nil c ts) - c := by
  intro ts
  induction ts with
  | nil =>
    intro idx s c _ _
    simp [runIncFrom]
  | cons t ts ih =>
    intro idx s c hc hp
    have hct : c ≤ t := (List.pairwise_cons.1 hp).1 t (List.mem_cons_self t ts)
    have hp_t : List.Pairwise (· ≤ ·) (t :: ts) := (List.pairwise_cons.1 hp).2
    have hp_c : List.Pairwise (· ≤ ·) (c :: ts) := by
      refine List.pairwise_cons.2 ⟨?_, (List.pairwise_cons.1 hp_t).2⟩
      intro a ha
      exact (List.pairwise_cons.1 hp).1 a (List.mem_cons_of_mem t ha)
    have hlast : (c :: t :: ts).getLast (List.cons_ne_nil c (t :: ts))
        = (t :: ts).getLast (List.cons_ne_nil t ts) := List.getLast_cons_cons c t ts
    rw [hlast]
    simp only [runIncFrom]
    by_cases hf : 999 < t - c
    · rw [inc_running_flush t junk c s hc hf]
      obtain ⟨h1, h2, h3⟩ := ih (idx + 1)
        ⟨⟨some t⟩, s.m_elapsed + (t - c), (s.m_tokens + 1) % 4294967296⟩ t rfl hp_t
      refine ⟨?_, ?_, ?_⟩
      · intro e he
        simp only [List.map_cons, List.map_nil, List.singleton_append, List.mem_cons] at he
        rcases he with rfl | he
        · simp only; omega
        · have := h1 e he; omega
      · simp only [List.map_cons, List.map_nil, List.singleton_append]
        refine List.chain'_cons'.2 ⟨?_, h2⟩
        intro y hy
        have hmem := List.mem_of_mem_head? hy
        have := h1 y hmem
        simpa using this
      · simp only [List.map_cons, List.map_nil, List.singleton_append, List.length_cons]
        push_cast
        omega
    · rw [inc_running_quiet t junk c s hc hf]
      obtain ⟨h1, h2, h3⟩ := ih (idx + 1)
        ⟨⟨some c⟩, s.m_elapsed, (s.m_tokens + 1) % 4294967296⟩ c rfl hp_c
      refine ⟨?_, ?_, ?_⟩
      · simpa using h1
      · simpa using h2
      · have := getLast_cons_le c t ts hct
        simp only [List.map_nil, List.nil_append]
        omega

theorem runInc_cons (junk t : Int) (ts : List Int) (s : TokenTimer) :
    runInc junk (t :: ts) s = runIncFrom junk 1 ts ⟨⟨some t⟩, 0, 1⟩ := by
  unfold runInc
  simp only [runIncFrom]
  rw [inc_not_running t junk (start s).1 rfl]
  simp [start]

/-- C5.  For every run of `inc()` calls after `start()` at non-decreasing clock
readings `t_1 ≤ ... ≤ t_k`, the number of reports the calls emit is at most
`⌊(t_k - t_1) / 1000⌋`, consecutive reports are at least 1000 ms apart, and no
report is emitted when all calls fall within one window (`t_k - t_1 < 1000`). -/
theorem inc_reports_once_per_window (junk : Int) (s : TokenTimer) (ts : List Int)
    (hne : ts ≠ []) (hmono : List.Chain' (· ≤ ·) ts) :
    ((runInc junk ts s).2.length : Int) ≤ (ts.getLast hne - ts.head hne) / 1000 ∧
    List.Chain' (fun a b : Emitted => a.time + 1000 ≤ b.time) (runInc junk ts s).2 ∧
    (ts.getLast hne - ts.head hne < 1000 → (runInc junk ts s).2 = []) := by
  cases ts with
  | nil => exact absurd rfl hne
  | cons t ts =>
    have hp : List.Pairwise (· ≤ ·) (t :: ts) := List.chain'_iff_pairwise.1 hmono
    obtain ⟨_, h2, h3⟩ := runIncFrom_spacing junk ts 1 ⟨⟨some t⟩, 0, 1⟩ t rfl hp
    rw [runInc_cons]
    simp only [List.head_cons]
    have hcount : ((runIncFrom junk 1 ts ⟨⟨some t⟩, 0, 1⟩).2.length : Int)
        ≤ ((t :: ts).getLast hne - t) / 1000 := Int.le_ediv_of_mul_le (by norm_num) h3
    refine ⟨hcount, h2, ?_⟩
    intro hlt
    have h0 : ((t :: ts).getLast hne - t) / 1000 ≤ 0 := by omega
    have hlen : (runIncFrom junk 1 ts ⟨⟨some t⟩, 0, 1⟩).2.length = 0 := by omega
    exact List.length_eq_zero.1 hlen

/-- C5 (witness): five calls at readings 0, 400, 1000, 1500, 2100. -/
theorem inc_reports_once_per_window_witness :
    List.Chain' (· ≤ ·) [(0 : Int), 400, 1000, 1500, 2100] ∧
    (((runInc 0 [0, 400, 1000, 1500, 2100] ⟨⟨none⟩, 0, 0⟩).2.length : Int)
        ≤ (([0, 400, 1000, 1500, 2100] : List Int).getLast (by decide)
            - ([0, 400, 1000, 1500, 2100] : List Int).head (by decide)) / 1000 ∧
      List.Chain' (fun a b : Emitted => a.time + 1000 ≤ b.time)
        (runInc 0 [0, 400, 1000, 1500, 2100] ⟨⟨none⟩, 0, 0⟩).2 ∧
      (([0, 400, 1000, 1500, 2100] : List Int).getLast (by decide)
            - ([0, 400, 1000, 1500, 2100] : List Int).head (by decide) < 1000 →
        (runInc 0 [0, 400, 1000, 1500, 2100] ⟨⟨none⟩, 0, 0⟩).2 = [])) :=
  ⟨by simp,
    inc_reports_once_per_window 0 ⟨⟨none⟩, 0, 0⟩ [0, 400, 1000, 1500, 2100] (by decide) (by simp)⟩

end TokenTimer

namespace TokenTimer

/-- The divisor `float(m_elapsed / 1000.0f)` is at least `1.0f` once a whole
second has been accumulated. -/
theorem seconds_pos (elapsed : Int) (h : 1000 ≤ elapsed) :
    ∃ d, seconds elapsed = some d ∧ (F32.unit : Int) ≤ d := by
  obtain ⟨E, hE⟩ : ∃ E : Nat, elapsed = (E : Int) := ⟨elapsed.toNat, by omega⟩
  subst hE
  have hE1000 : 1000 ≤ E := by exact_mod_cast h
  have h24 : (2 : Nat) ^ 24 = 16777216 := by norm_num
  have hX : 1000 * F32.unit ≤ F32.roundNat (E * F32.unit) 1 := by
    apply F32.le_roundNat _ _ _ Nat.one_pos (F32.Rep.natCast_mul_unit 1000 (by omega))
    rw [Nat.mul_one]
    exact Nat.mul_le_mul_right _ hE1000
  have hpos : 0 < 1000 * F32.unit := Nat.mul_pos (by norm_num) F32.unit_pos
  have h1000 : F32.ofInt 1000 = ((1000 * F32.unit : Nat) : Int) := by
    have := F32.ofInt_exact 1000 (by omega)
    simpa using this
  refine ⟨((F32.roundNat (F32.roundNat (E * F32.unit) 1 * F32.unit) (1000 * F32.unit) : Nat) : Int),
    ?_, ?_⟩
  · unfold seconds
    rw [F32.ofInt_natCast, h1000]
    exact F32.div_natCast _ _ hpos
  · have hrep : F32.Rep F32.unit := ⟨1, 149, by norm_num, by simp [F32.unit]⟩
    have := F32.le_roundNat (F32.roundNat (E * F32.unit) 1 * F32.unit) (1000 * F32.unit)
      F32.unit hpos hrep (by
        calc F32.unit * (1000 * F32.unit) = 1000 * F32.unit * F32.unit := by ring
          _ ≤ F32.roundNat (E * F32.unit) 1 * F32.unit := Nat.mul_le_mul_right _ hX)
    exact_mod_cast this

theorem runIncFrom_elapsed (junk : Int) :
    ∀ (ts : List Int) (idx : Nat) (s : TokenTimer) (c : Int), s.m_time = ⟨some c⟩ →
      ∀ (i : Nat) (e : Emitted), (runIncFrom junk idx ts s).2[i]? = some e →
        s.m_elapsed + 1000 * ((i : Int) + 1) ≤ e.report.elapsed := by
  intro ts
  induction ts with
  | nil =>
    intro idx s c _ i e he
    simp [runIncFrom] at he
  | cons t ts ih =>
    intro idx s c hc i e he
    simp only [runIncFrom] at he
    by_cases hf : 999 < t - c
    · rw [inc_running_flush t junk c s hc hf] at he
      simp only [List.map_cons, List.map_nil, List.singleton_append] at he
      cases i with
      | zero =>
        simp only [List.getElem?_cons_zero, Option.some.injEq] at he
        subst he
        simp only
        push_cast
        omega
      | succ j =>
        simp only [List.getElem?_cons_succ] at he
        have := ih (idx + 1) ⟨⟨some t⟩, s.m_elapsed + (t - c), (s.m_tokens + 1) % 4294967296⟩ t rfl
          j e he
        simp only at this
        push_cast
        omega
    · rw [inc_running_quiet t junk c s hc hf] at he
      simp only [List.map_nil, List.nil_append] at he
      exact ih (idx + 1) ⟨⟨some c⟩, s.m_elapsed, (s.m_tokens + 1) % 4294967296⟩ c rfl i e he

/-- C10.  In every run that begins with `start()` and continues with `inc()`
calls, the report number `i + 1` carries an accumulated elapsed time of at least
`1000 * (i + 1)` ms; the divisor `float(m_elapsed / 1000.0f)` of its rate is a
number, at least `1.0f`, and so never zero.  (No assumption on the readings is
needed, so this holds in particular under a non-decreasing clock.) -/
theorem inc_report_elapsed_ge (junk : Int) (s : TokenTimer) (ts : List Int) (i : Nat)
    (e : Emitted) (he : (runInc junk ts s).2[i]? = some e) :
    1000 * ((i : Int) + 1) ≤ e.report.elapsed ∧
    ∃ d, seconds e.report.elapsed = some d ∧ (F32.unit : Int) ≤ d ∧ d ≠ 0 := by
  cases ts with
  | nil => simp [runInc, runIncFrom] at he
  | cons t ts =>
    rw [runInc_cons] at he
    have h1 := runIncFrom_elapsed junk ts 1 ⟨⟨some t⟩, 0, 1⟩ t rfl i e he
    simp only [zero_add] at h1
    refine ⟨h1, ?_⟩
    have hi : (0 : Int) ≤ (i : Int) := Int.natCast_nonneg i
    obtain ⟨d, hd1, hd2⟩ := seconds_pos e.report.elapsed (by omega)
    refine ⟨d, hd1, hd2, ?_⟩
    have : (0 : Int) < (F32.unit : Int) := by exact_mod_cast F32.unit_pos
    omega

/-- C10 (witness): the second report of the run at readings 0, 1000, 2500. -/
theorem inc_report_elapsed_ge_witness :
    (runInc 0 [0, 1000, 2500] ⟨⟨none⟩, 0, 0⟩).2[1]? = some ⟨2, 2500, ⟨3, 2500⟩⟩ ∧
    (1000 * (((1 : Nat) : Int) + 1) ≤ (⟨2, 2500, ⟨3, 2500⟩⟩ : Emitted).report.elapsed ∧
      ∃ d, seconds (⟨2, 2500, ⟨3, 2500⟩⟩ : Emitted).report.elapsed = some d ∧
        (F32.unit : Int) ≤ d ∧ d ≠ 0) :=
  ⟨by decide,
    inc_report_elapsed_ge 0 ⟨⟨none⟩, 0, 0⟩ [0, 1000, 2500] 1 ⟨2, 2500, ⟨3, 2500⟩⟩ (by decide)⟩

end TokenTimer

namespace TokenTimer

set_option maxRecDepth 100000 in
/-- C4 (counterexample).  After `start()`, three `inc()` calls at readings 0,
1000 and 2000 emit two reports.  The second one shows 3 tokens over 2 s, that is
`1.5`, whereas the interval that just ended counted one token in one second,
that is `1.0`. -/
theorem report_rate_not_per_interval :
    (runInc 0 [0, 1000, 2000] ⟨⟨none⟩, 0, 0⟩).2
      = [⟨1, 1000, ⟨2, 1000⟩⟩, ⟨2, 2000, ⟨3, 2000⟩⟩] ∧
    (runInc 0 [0, 1000, 2000] ⟨⟨none⟩, 0, 0⟩).2.map (fun e => e.report.speed)
      = [some (2 * 2 ^ 149), some (3 * 2 ^ 148)] ∧
    specRates [0, 1000, 2000] = [some (2 * 2 ^ 149), some (2 ^ 149)] ∧
    (runInc 0 [0, 1000, 2000] ⟨⟨none⟩, 0, 0⟩).2.map (fun e => e.report.speed)
      ≠ specRates [0, 1000, 2000] := by
  have h1 : (runInc 0 [0, 1000, 2000] ⟨⟨none⟩, 0, 0⟩).2.map (fun e => e.report.speed)
      = [some (2 * 2 ^ 149), some (3 * 2 ^ 148)] := by decide
  have h2 : specRates [0, 1000, 2000] = [some (2 * 2 ^ 149), some (2 ^ 149)] := by decide
  refine ⟨by decide, h1, h2, ?_⟩
  rw [h1, h2]
  decide

theorem runIncFrom_cumulative (junk t1 : Int) :
    ∀ (ts : List Int) (idx : Nat) (s : TokenTimer) (c : Int), s.m_time = ⟨some c⟩ →
      s.m_elapsed = c - t1 → s.m_tokens = idx % 4294967296 →
      (∀ e ∈ (runIncFrom junk idx ts s).2,
        idx ≤ e.call ∧ ts[e.call - idx]? = some e.time ∧
        e.report.tokens = (e.call + 1) % 4294967296 ∧ e.report.elapsed = e.time - t1) ∧
      (∃ c2, (runIncFrom junk idx ts s).1.m_time = ⟨some c2⟩ ∧
        (runIncFrom junk idx ts s).1.m_elapsed = c2 - t1) ∧
      (runIncFrom junk idx ts s).1.m_tokens = (idx + ts.length) % 4294967296 := by
  intro ts
  induction ts with
  | nil =>
    intro idx s c hc he ht
    simp only [runIncFrom, List.not_mem_nil, false_implies, implies_true, true_and,
      List.length_nil, Nat.add_zero]
    exact ⟨⟨c, hc, he⟩, ht⟩
  | cons t ts ih =>
    intro idx s c hc he ht
    have htok : (s.m_tokens + 1) % 4294967296 = (idx + 1) % 4294967296 := by omega
    have hlen : idx + (t :: ts).length = idx + 1 + ts.length := by
      simp only [List.length_cons]; omega
    simp only [runIncFrom]
    rw [hlen]
    by_cases hf : 999 < t - c
    · rw [inc_running_flush t junk c s hc hf]
      obtain ⟨h1, h2, h3⟩ := ih (idx + 1)
        ⟨⟨some t⟩, s.m_elapsed + (t - c), (s.m_tokens + 1) % 4294967296⟩ t rfl
        (by simp only; omega) htok
      refine ⟨?_, h2, h3⟩
      intro e hmem
      simp only [List.map_cons, List.map_nil, List.singleton_append, List.mem_cons] at hmem
      rcases hmem with rfl | hmem
      · refine ⟨le_refl _, by simp, ?_, ?_⟩
        · simp only; exact htok
        · simp only; omega
      · obtain ⟨g1, g2, g3, g4⟩ := h1 e hmem
        refine ⟨by omega, ?_, g3, g4⟩
        have : e.call - idx = (e.call - (idx + 1)) + 1 := by omega
        rw [this, List.getElem?_cons_succ]
        exact g2
    · rw [inc_running_quiet t junk c s hc hf]
      obtain ⟨h1, h2, h3⟩ := ih (idx + 1)
        ⟨⟨some c⟩, s.m_elapsed, (s.m_tokens + 1) % 4294967296⟩ c rfl he htok
      refine ⟨?_, h2, h3⟩
      intro e hmem
      simp only [List.map_nil, List.nil_append] at hmem
      obtain ⟨g1, g2, g3, g4⟩ := h1 e hmem
      refine ⟨by omega, ?_, g3, g4⟩
      have : e.call - idx = (e.call - (idx + 1)) + 1 := by omega
      rw [this, List.getElem?_cons_succ]
      exact g2

/-- C4 (amended).  In a run that begins with `start()` and continues with
`inc()` calls at readings `t1, ...`, every report flushed by an `inc()` call
shows the quotient, computed in single precision, of all tokens counted since
`start()` (the number of `inc()` calls up to the flushing one, modulo `2^32`) by
the whole time since the first `inc()` in seconds; a `stop()` after the run
reports the same quotient for all the calls of the run and the time from the
first `inc()` to the `stop()`. -/
theorem report_rate_is_cumulative (junk : Int) (s : TokenTimer) (t1 : Int) (rest : List Int) :
    (∀ e ∈ (runInc junk (t1 :: rest) s).2,
      (t1 :: rest)[e.call]? = some e.time ∧
      e.report.tokens = (e.call + 1) % 4294967296 ∧
      e.report.elapsed = e.time - t1 ∧
      e.report.speed = rate ((e.call + 1) % 4294967296) (e.time - t1)) ∧
    (∀ now, (stop now junk (runInc junk (t1 :: rest) s).1).2
      = [⟨(rest.length + 1) % 4294967296, now - t1⟩] ∧
      ((stop now junk (runInc junk (t1 :: rest) s).1).2.map Report.speed
        = [rate ((rest.length + 1) % 4294967296) (now - t1)])) := by
  rw [runInc_cons]
  obtain ⟨h1, ⟨c2, h2, h2e⟩, h3⟩ :=
    runIncFrom_cumulative junk t1 rest 1 ⟨⟨some t1⟩, 0, 1⟩ t1 rfl (by simp) (by simp)
  constructor
  · intro e hmem
    obtain ⟨g1, g2, g3, g4⟩ := h1 e hmem
    refine ⟨?_, g3, g4, ?_⟩
    · have : e.call = (e.call - 1) + 1 := by omega
      rw [this, List.getElem?_cons_succ]
      exact g2
    · unfold Report.speed
      rw [g3, g4]
  · intro now
    have hstop : (stop now junk (runIncFrom junk 1 rest ⟨⟨some t1⟩, 0, 1⟩).1).2
        = [⟨(rest.length + 1) % 4294967296, now - t1⟩] := by
      simp only [stop, handleTimeout, QElapsedTimer.restart, QElapsedTimer.elapsed, h2, h2e, h3]
      have e1 : 1 + rest.length = rest.length + 1 := by omega
      have e2 : c2 - t1 + (now - c2) = now - t1 := by omega
      rw [e1, e2]
    refine ⟨hstop, ?_⟩
    rw [hstop]
    rfl

end TokenTimer

/-! ## The session -/

namespace ChatLLM

theorem getU32_putU32 (n : Nat) (rest : QByteArray) (h : n < 4294967296) :
    getU32 (putU32 n ++ rest) = some (n, rest) := by
  simp only [putU32, getU32, List.cons_append, List.nil_append, Option.some.injEq, Prod.mk.injEq,
    and_true]
  omega

theorem getUnits_putUnits (us : QString) (rest : QByteArray) (h : ∀ u ∈ us, u < 65536) :
    getUnits us.length (putUnits us ++ rest) = some (us, rest) := by
  induction us with
  | nil => simp [getUnits, putUnits]
  | cons u us ih =>
    have hu : u < 65536 := h u (List.mem_cons_self u us)
    have ih2 := ih (fun v hv => h v (List.mem_cons_of_mem u hv))
    have hval : u / 256 % 256 * 256 + u % 256 = u := by omega
    have ih3 : getUnits us.length (List.append (putUnits us) rest) = some (us, rest) := ih2
    simp only [putUnits, List.length_cons, List.cons_append, getUnits, ih3, hval]

theorem getString_putString (s : QString) (rest : QByteArray) (h : ∀ u ∈ s, u < 65536)
    (hl : 2 * s.length < 4294967296) :
    getString (putString s ++ rest) = some (s, rest) := by
  unfold getString putString
  rw [List.append_assoc, getU32_putU32 _ _ hl]
  simp only
  have h1 : 2 * s.length % 2 = 0 := by omega
  have h2 : 2 * s.length / 2 = s.length := by omega
  rw [if_pos h1, h2]
  exact getUnits_putUnits s rest h

theorem getBlob_putBlob (b rest : QByteArray) (hl : b.length < 4294967296) :
    getBlob (putBlob b ++ rest) = some (b, rest) := by
  unfold getBlob putBlob
  rw [List.append_assoc, getU32_putU32 _ _ hl]
  simp

end ChatLLM

namespace ChatLLM

/-- C8.  On a session in which no model is loaded, `prompt(...)` returns false
for every argument list and changes nothing: the session state (response buffer,
both token counts, snippet list, stored context and all the rest) is the one it
was, and no signal, in particular no response update, is emitted. -/
theorem prompt_unloaded_fails (env : Collaborators) (args : PromptArgs) (s : ChatLLM)
    (h : s.isModelLoaded = false) :
    (prompt env args s).1 = false ∧ (prompt env args s).2.1 = s ∧
    (prompt env args s).2.1.m_response = s.m_response ∧
    (prompt env args s).2.1.m_promptTokens = s.m_promptTokens ∧
    (prompt env args s).2.1.m_promptResponseTokens = s.m_promptResponseTokens ∧
    (prompt env args s).2.1.m_databaseResults = s.m_databaseResults ∧
    (prompt env args s).2.1.m_ctx = s.m_ctx ∧
    (prompt env args s).2.2 = [] ∧ Signal.responseChanged ∉ (prompt env args s).2.2 := by
  have hp : prompt env args s = (false, s, []) := by
    unfold prompt
    simp [h]
  rw [hp]
  simp

/-- C8 (witness): the sample session, which has no model loaded. -/
theorem prompt_unloaded_fails_witness :
    sampleSession.isModelLoaded = false ∧
    ((prompt sampleCollaborators ⟨[72], [], 10, []⟩ sampleSession).1 = false ∧
      (prompt sampleCollaborators ⟨[72], [], 10, []⟩ sampleSession).2.1 = sampleSession ∧
      (prompt sampleCollaborators ⟨[72], [], 10, []⟩ sampleSession).2.1.m_response
        = sampleSession.m_response ∧
      (prompt sampleCollaborators ⟨[72], [], 10, []⟩ sampleSession).2.1.m_promptTokens
        = sampleSession.m_promptTokens ∧
      (prompt sampleCollaborators ⟨[72], [], 10, []⟩ sampleSession).2.1.m_promptResponseTokens
        = sampleSession.m_promptResponseTokens ∧
      (prompt sampleCollaborators ⟨[72], [], 10, []⟩ sampleSession).2.1.m_databaseResults
        = sampleSession.m_databaseResults ∧
      (prompt sampleCollaborators ⟨[72], [], 10, []⟩ sampleSession).2.1.m_ctx
        = sampleSession.m_ctx ∧
      (prompt sampleCollaborators ⟨[72], [], 10, []⟩ sampleSession).2.2 = [] ∧
      Signal.responseChanged ∉ (prompt sampleCollaborators ⟨[72], [], 10, []⟩ sampleSession).2.2) :=
  ⟨rfl, prompt_unloaded_fails sampleCollaborators ⟨[72], [], 10, []⟩ sampleSession rfl⟩

/-- C9.  For every session whose fields fit their types and every version that
fits the 32 bit tag, `serialize` succeeds, and `deserialize` with the same
version on the bytes written succeeds, into any session, and yields a session
whose model name, prompt token count, prompt-response token count and response
text equal those of the serialized session (so does the context blob; the
session is left unloaded). -/
theorem serialize_deserialize_roundtrip (s t : ChatLLM) (version : Nat) (hs : WellFormed s)
    (hv : version < 4294967296) :
    (serialize s version).1 = true ∧
    (deserialize (serialize s version).2 version t).1 = true ∧
    (deserialize (serialize s version).2 version t).2.m_modelName = s.m_modelName ∧
    (deserialize (serialize s version).2 version t).2.m_promptTokens = s.m_promptTokens ∧
    (deserialize (serialize s version).2 version t).2.m_promptResponseTokens
      = s.m_promptResponseTokens ∧
    (deserialize (serialize s version).2 version t).2.m_response = s.m_response ∧
    (deserialize (serialize s version).2 version t).2.m_state = s.m_state ∧
    (deserialize (serialize s version).2 version t).2.isModelLoaded = false := by
  obtain ⟨h1, h2, h3, h4, h5, h6, h7⟩ := hs
  have hd : deserialize (serialize s version).2 version t
      = (true, { t with m_modelName := s.m_modelName, m_promptTokens := s.m_promptTokens,
                        m_promptResponseTokens := s.m_promptResponseTokens,
                        m_response := s.m_response, m_state := s.m_state,
                        modelPresent := false }) := by
    unfold deserialize serialize
    simp only [List.append_assoc]
    rw [getU32_putU32 _ _ hv]
    simp only [ne_eq, not_true_eq_false, if_false]
    rw [getString_putString _ _ h1 h2]
    simp only
    rw [getU32_putU32 _ _ h5]
    simp only
    rw [getU32_putU32 _ _ h6]
    simp only
    rw [getString_putString _ _ h3 h4]
    simp only
    have hb := getBlob_putBlob s.m_state [] h7
    rw [List.append_nil] at hb
    rw [hb]
  rw [hd]
  exact ⟨rfl, rfl, rfl, rfl, rfl, rfl, rfl, rfl⟩

/-- C9 (witness): the sample session at version 2, read back into itself. -/
theorem serialize_deserialize_roundtrip_witness :
    WellFormed sampleSession ∧ (2 : Nat) < 4294967296 ∧
    ((serialize sampleSession 2).1 = true ∧
      (deserialize (serialize sampleSession 2).2 2 sampleSession).1 = true ∧
      (deserialize (serialize sampleSession 2).2 2 sampleSession).2.m_modelName
        = sampleSession.m_modelName ∧
      (deserialize (serialize sampleSession 2).2 2 sampleSession).2.m_promptTokens
        = sampleSession.m_promptTokens ∧
      (deserialize (serialize sampleSession 2).2 2 sampleSession).2.m_promptResponseTokens
        = sampleSession.m_promptResponseTokens ∧
      (deserialize (serialize sampleSession 2).2 2 sampleSession).2.m_response
        = sampleSession.m_response ∧
      (deserialize (serialize sampleSession 2).2 2 sampleSession).2.m_state
        = sampleSession.m_state ∧
      (deserialize (serialize sampleSession 2).2 2 sampleSession).2.isModelLoaded = false) :=
  ⟨by simp [WellFormed, sampleSession], by decide,
    serialize_deserialize_roundtrip sampleSession sampleSession 2
      (by simp [WellFormed, sampleSession]) (by decide)⟩

end ChatLLM
